import Mathlib

/-!
Verification of the tile pyramid subsystem of garage44/vibe-world.

Shallow embedding of the Rust sources:
  * `src/tile_system/types.rs`     — `TileId`, adjacency, `Tile` state machine
  * `src/tile_system/quadtree.rs`  — `TileQuadtree` visibility / LOD selection
  * `src/tile_system/cache.rs`     — `TileCache` (in-memory tier)
  * `src/tile_system/scheduler.rs` — `TileScheduler` priority queue and slots
  * `src/osm/cache.rs`             — `load_tile_image` retry loop

Machine integers are modelled exactly (`Nat`/`Int`); all the operations the
claims touch stay far below the 32-bit overflow boundary for the documented
zoom range.  `f32` values that are only stored, compared or `max`ed (priorities,
timestamps) are modelled as `ℚ`; the floating-point view-intersection geometry
is abstracted as a boolean oracle `TileId → Bool`, which is the only way the
quadtree code consumes it.  External collaborators (the `image` crate decoder,
the HTTP client) are parameters of the embedding.
-/

namespace VibeWorld

/-- `TileId` from `src/tile_system/types.rs`: zoom plus x/y coordinates.
Rust uses `u8`/`u32`; modelled as `Nat` (all claim-relevant arithmetic is
exact in this range). -/
structure TileId where
  zoom : Nat
  x : Nat
  y : Nat
deriving DecidableEq, Repr

/-- The body of the `get_adjacent_tiles` double loop for one `(dx, dy)`
offset pair: skip `(0,0)`, wrap x via `rem_euclid` (`Int.emod`), skip the
pair when y leaves `[0, 1 << zoom)`. -/
def TileId.adjCandidate (t : TileId) (dx dy : Int) : Option TileId :=
  if dx = 0 ∧ dy = 0 then none
  else if (t.y : Int) + dy < 0 ∨ (t.y : Int) + dy ≥ 2 ^ t.zoom then none
  else some ⟨t.zoom, (((t.x : Int) + dx) % 2 ^ t.zoom).toNat,
             ((t.y : Int) + dy).toNat⟩

/-- `TileId::get_adjacent_tiles` from `src/tile_system/types.rs` lines 86-113:
the same-zoom neighbours; x wraps modulo `1 << zoom` (`rem_euclid`), rows
with y out of `[0, 1 << zoom)` are skipped.  Loop order: outer `dx`, inner
`dy`, each over `-1..=1`. -/
def TileId.getAdjacentTiles (t : TileId) : List TileId :=
  (([-1, 0, 1] : List Int).map fun dx =>
    ([-1, 0, 1] : List Int).filterMap fun dy => t.adjCandidate dx dy).flatten

/-- The four children of a tile, in the order `TileId::children` /
`QuadTreeNode::subdivide` produce them: `(x,y)`, `(x+1,y)`, `(x,y+1)`,
`(x+1,y+1)` at `zoom + 1` with doubled coordinates. -/
def TileId.childIds (t : TileId) : List TileId :=
  [⟨t.zoom + 1, 2 * t.x, 2 * t.y⟩,
   ⟨t.zoom + 1, 2 * t.x + 1, 2 * t.y⟩,
   ⟨t.zoom + 1, 2 * t.x, 2 * t.y + 1⟩,
   ⟨t.zoom + 1, 2 * t.x + 1, 2 * t.y + 1⟩]

/-- The quadtree ancestor of `d` at zoom `z` (meaningful for `z ≤ d.zoom`):
drop `d.zoom - z` levels by integer division. -/
def TileId.ancAt (d : TileId) (z : Nat) : TileId :=
  ⟨z, d.x / 2 ^ (d.zoom - z), d.y / 2 ^ (d.zoom - z)⟩

/-- `a` is a strict quadtree ancestor of `b`: `a` sits at a strictly
coarser zoom and `b`'s coordinates collapse onto `a`'s. -/
def TileId.isStrictAncestorOf (a b : TileId) : Prop :=
  a.zoom < b.zoom ∧ b.ancAt a.zoom = a

/-- `a` equals `b` or is a strict ancestor of it (weak descendant relation,
read `weakDesc a b` as "b descends from a"). -/
def TileId.weakDesc (a b : TileId) : Prop :=
  a.zoom ≤ b.zoom ∧ b.ancAt a.zoom = a

instance (a b : TileId) : Decidable (a.isStrictAncestorOf b) := by
  unfold TileId.isStrictAncestorOf; infer_instance

instance (a b : TileId) : Decidable (a.weakDesc b) := by
  unfold TileId.weakDesc; infer_instance

/-- Neither tile is a strict quadtree ancestor of the other. -/
def noAncestorPair (a b : TileId) : Prop :=
  ¬ a.isStrictAncestorOf b ∧ ¬ b.isStrictAncestorOf a

instance (a b : TileId) : Decidable (noAncestorPair a b) := by
  unfold noAncestorPair; infer_instance

/-- `TileState` from `src/tile_system/types.rs` lines 242-257.  Bevy's
`Entity` is an opaque id, modelled as `Nat`; `load_time` is the stored
`u32` milliseconds. -/
inductive TileState where
  | notLoaded
  | loading
  | failed
  | loaded (entity : Nat) (loadTime : Nat)
deriving DecidableEq, Repr

/-- `Tile` from `src/tile_system/types.rs` lines 260-272.  `last_visible`
is an `f32` that is only stored, modelled as `ℚ`; `children` mirrors
`Option<Box<[Tile; 4]>>`. -/
inductive Tile where
  | mk (id : TileId) (state : TileState) (lastVisible : ℚ) (textureSize : Nat)
       (children : Option (Tile × Tile × Tile × Tile))

/-- The `state` field of a `Tile`. -/
def Tile.state : Tile → TileState
  | .mk _ s _ _ _ => s

/-- `Tile::set_loading` (types.rs lines 317-324): a `Loaded` tile is left
unchanged, anything else becomes `Loading`. -/
def Tile.setLoading : Tile → Tile
  | .mk i s lv ts ch =>
    match s with
    | .loaded e t => .mk i (.loaded e t) lv ts ch
    | _ => .mk i .loading lv ts ch

/-- `Tile::set_failed` (types.rs lines 326-333): a `Loaded` tile is left
unchanged, anything else becomes `Failed`. -/
def Tile.setFailed : Tile → Tile
  | .mk i s lv ts ch =>
    match s with
    | .loaded e t => .mk i (.loaded e t) lv ts ch
    | _ => .mk i .failed lv ts ch

/-! ## Quadtree (`src/tile_system/quadtree.rs`)

`QuadTreeNode` holds a tile id, `children: Option<Box<[QuadTreeNode; 4]>>`,
and `visible`/`loaded` flags; modelled as a leaf (no children) or a node with
exactly four children.  The `f32` view-intersection test
`TileBounds::intersects_with_view` is the only thing `update` consumes from
the geometry, so it is abstracted as an oracle `isVis : TileId → Bool`. -/

inductive QuadTreeNode where
  | leaf (tileId : TileId) (visible : Bool) (loaded : Bool)
  | node (tileId : TileId) (visible : Bool) (loaded : Bool)
         (c0 c1 c2 c3 : QuadTreeNode)
deriving DecidableEq, Repr

/-- The `tile_id` field of a node. -/
def QuadTreeNode.tileId : QuadTreeNode → TileId
  | .leaf id _ _ => id
  | .node id _ _ _ _ _ _ => id

/-- The `visible` flag of a node. -/
def QuadTreeNode.visibleFlag : QuadTreeNode → Bool
  | .leaf _ v _ => v
  | .node _ v _ _ _ _ _ => v

/-- `TileQuadtree::reset_node_visibility`: clear the `visible` flag on a
node and all its descendants. -/
def QuadTreeNode.resetVisibility : QuadTreeNode → QuadTreeNode
  | .leaf id _ ld => .leaf id false ld
  | .node id _ ld c0 c1 c2 c3 =>
      .node id false ld c0.resetVisibility c1.resetVisibility
            c2.resetVisibility c3.resetVisibility

/-- The part of `TileQuadtree::update_node_visibility` that runs on freshly
created children: `subdivide` builds `QuadTreeNode::new` leaves
(`visible = false`, `loaded = false`) with the ids of `TileId.childIds`, and
the recursion immediately visits them.  Terminates because each level of
subdivision raises the zoom towards `tz`. -/
def QuadTreeNode.freshExpand (isVis : TileId → Bool) (tz : Nat) (id : TileId) :
    QuadTreeNode :=
  if ¬ (isVis id) then .leaf id false false
  else if tz ≤ id.zoom then .leaf id true false
  else
    .node id true false
      (freshExpand isVis tz ⟨id.zoom + 1, 2 * id.x, 2 * id.y⟩)
      (freshExpand isVis tz ⟨id.zoom + 1, 2 * id.x + 1, 2 * id.y⟩)
      (freshExpand isVis tz ⟨id.zoom + 1, 2 * id.x, 2 * id.y + 1⟩)
      (freshExpand isVis tz ⟨id.zoom + 1, 2 * id.x + 1, 2 * id.y + 1⟩)
termination_by tz - id.zoom

/-- `TileQuadtree::update_node_visibility` (quadtree.rs lines 190-241) with
the `f32` bounds test abstracted as `isVis`:
if the node's bounds do not intersect the view, `merge` the children and
clear `visible`; otherwise mark it visible, stop if `zoom >= target_zoom`,
else `subdivide` (a no-op when children exist) and recurse into the four
children. -/
def QuadTreeNode.updateVisibility (isVis : TileId → Bool) (tz : Nat) :
    QuadTreeNode → QuadTreeNode
  | .leaf id _ ld =>
      if ¬ (isVis id) then .leaf id false ld
      else if tz ≤ id.zoom then .leaf id true ld
      else
        .node id true ld
          (freshExpand isVis tz ⟨id.zoom + 1, 2 * id.x, 2 * id.y⟩)
          (freshExpand isVis tz ⟨id.zoom + 1, 2 * id.x + 1, 2 * id.y⟩)
          (freshExpand isVis tz ⟨id.zoom + 1, 2 * id.x, 2 * id.y + 1⟩)
          (freshExpand isVis tz ⟨id.zoom + 1, 2 * id.x + 1, 2 * id.y + 1⟩)
  | .node id _ ld c0 c1 c2 c3 =>
      if ¬ (isVis id) then .leaf id false ld
      else if tz ≤ id.zoom then .node id true ld c0 c1 c2 c3
      else
        .node id true ld
          (updateVisibility isVis tz c0) (updateVisibility isVis tz c1)
          (updateVisibility isVis tz c2) (updateVisibility isVis tz c3)

/-- `TileQuadtree::update` (quadtree.rs lines 138-152): clamp the requested
zoom to `[0, max_zoom]` (here: `min tz mz`, mirroring
`zoom.clamp(0.0, max_zoom)` followed by `floor`), reset all visibility, then
recompute it from the root. -/
def quadtreeUpdate (isVis : TileId → Bool) (tz mz : Nat) (root : QuadTreeNode) :
    QuadTreeNode :=
  (root.resetVisibility).updateVisibility isVis (min tz mz)

/-- `TileQuadtree::collect_visible_tiles` (quadtree.rs lines 250-278):
skip invisible nodes; a childless node (or one at `max_zoom`) contributes
itself; otherwise recurse into the visible children, falling back to the
node itself when no child is visible.  Recursing into an invisible child
returns `[]`, so the unconditional concatenation below equals Rust's
visible-children-only loop. -/
def QuadTreeNode.collectVisibleTiles (mz : Nat) : QuadTreeNode → List TileId
  | .leaf id v _ => if v then [id] else []
  | .node id v _ c0 c1 c2 c3 =>
      if ¬ v then []
      else if id.zoom = mz then [id]
      else if c0.visibleFlag || c1.visibleFlag || c2.visibleFlag || c3.visibleFlag then
        c0.collectVisibleTiles mz ++ (c1.collectVisibleTiles mz ++
          (c2.collectVisibleTiles mz ++ c3.collectVisibleTiles mz))
      else [id]

/-- `TileQuadtree::get_visible_tiles` (quadtree.rs lines 244-248). -/
def getVisibleTiles (mz : Nat) (root : QuadTreeNode) : List TileId :=
  root.collectVisibleTiles mz

/-- `TileQuadtree::get_tiles_to_load` (quadtree.rs lines 281-296): every
visible tile together with its `get_adjacent_tiles` ring, gathered into a
`HashSet` (modelled as a list with membership semantics). -/
def getTilesToLoad (mz : Nat) (root : QuadTreeNode) : List TileId :=
  (getVisibleTiles mz root).flatMap fun id => id :: id.getAdjacentTiles

/-- Well-formedness of a quadtree: each node's four children carry exactly
the ids `subdivide` would give them.  Every tree the Rust code builds (the
zoom-0 root plus `subdivide`-created children) satisfies this. -/
def QuadTreeNode.wfB : QuadTreeNode → Bool
  | .leaf _ _ _ => true
  | .node id _ _ c0 c1 c2 c3 =>
      decide (c0.tileId = ⟨id.zoom + 1, 2 * id.x, 2 * id.y⟩) &&
      decide (c1.tileId = ⟨id.zoom + 1, 2 * id.x + 1, 2 * id.y⟩) &&
      decide (c2.tileId = ⟨id.zoom + 1, 2 * id.x, 2 * id.y + 1⟩) &&
      decide (c3.tileId = ⟨id.zoom + 1, 2 * id.x + 1, 2 * id.y + 1⟩) &&
      c0.wfB && c1.wfB && c2.wfB && c3.wfB

/-- Every visibility flag in the subtree is cleared — the state
`reset_visibility` leaves behind. -/
def QuadTreeNode.allInvisible : QuadTreeNode → Bool
  | .leaf _ v _ => !v
  | .node _ v _ c0 c1 c2 c3 =>
      !v && c0.allInvisible && c1.allInvisible && c2.allInvisible &&
        c3.allInvisible

/-! ## In-memory cache (`src/tile_system/cache.rs`)

`TileCache` keeps three `HashMap`s: tile bytes, last-access seconds and a
loading marker; modelled as association lists with first-match lookup and
replace-on-insert.  The `image::load_from_memory` validation is an external
crate, passed in as `decodeOk`.  Byte payloads are `List Nat` (each entry a
`u8` value; no byte arithmetic occurs). -/

/-- `TileError` from `src/tile_system/types.rs` lines 20-30. -/
inductive TileError where
  | notFound
  | downloadFailed
  | loadError (msg : String)
  | cacheError
deriving DecidableEq, Repr

/-- First-match association-list lookup (the `HashMap::get` of the model). -/
def mapLookup {α β : Type} [DecidableEq α] (l : List (α × β)) (k : α) : Option β :=
  (l.find? fun p => p.1 = k).map Prod.snd

/-- `HashMap::insert`: replace the binding for `k` (or add it). -/
def mapInsert {α β : Type} [DecidableEq α] (l : List (α × β)) (k : α) (v : β) :
    List (α × β) :=
  (k, v) :: l.filter fun p => ¬ p.1 = k

/-- `HashMap::remove`: drop the binding for `k` if present. -/
def mapRemove {α β : Type} [DecidableEq α] (l : List (α × β)) (k : α) :
    List (α × β) :=
  l.filter fun p => ¬ p.1 = k

/-- `TileCache` from `src/tile_system/cache.rs` lines 14-28 (the fields the
claims touch: `tiles`, `last_access`, `loading`). -/
structure TileCache where
  tiles : List (TileId × List Nat)
  lastAccess : List (TileId × Nat)
  loading : List (TileId × Bool)
deriving DecidableEq, Repr

/-- The empty cache (`TileCache::new`). -/
def TileCache.empty : TileCache := ⟨[], [], []⟩

/-- `TileCache::insert` (cache.rs lines 57-78): reject bytes the image
decoder cannot parse with `LoadError("Invalid image data")`, leaving the
cache untouched; otherwise store the bytes, stamp `last_access` with the
current wall-clock seconds (a parameter here) and clear the loading marker.
Rust mutates `&mut self` and returns `Result<(), TileError>`; modelled as a
result/state pair where the error case carries the unchanged state. -/
def TileCache.insert (decodeOk : List Nat → Bool) (c : TileCache) (id : TileId)
    (data : List Nat) (currentTime : Nat) : Except TileError Unit × TileCache :=
  if ¬ (decodeOk data) then
    (.error (.loadError "Invalid image data"), c)
  else
    (.ok (),
     { tiles := mapInsert c.tiles id data,
       lastAccess := mapInsert c.lastAccess id currentTime,
       loading := mapRemove c.loading id })

/-- `TileCache::get` (cache.rs lines 81-83). -/
def TileCache.get (c : TileCache) (id : TileId) : Option (List Nat) :=
  mapLookup c.tiles id

/-- `TileCache::contains` (cache.rs lines 86-88). -/
def TileCache.containsTile (c : TileCache) (id : TileId) : Bool :=
  (mapLookup c.tiles id).isSome

/-- `TileCache::remove` (cache.rs lines 91-94): drop the `last_access`
entry, then remove and return the tile bytes. -/
def TileCache.remove (c : TileCache) (id : TileId) :
    Option (List Nat) × TileCache :=
  (mapLookup c.tiles id,
   { c with lastAccess := mapRemove c.lastAccess id,
            tiles := mapRemove c.tiles id })

/-! ## Scheduler (`src/tile_system/scheduler.rs`)

Priorities and timestamps are `f32`s that are only compared and `max`ed —
modelled as `ℚ`.  The `BinaryHeap<TileRequest>` is modelled as a list with
multiset semantics; `TileRequest`'s reversed `Ord` makes the heap pop the
smallest priority first, so `pop` extracts the first entry of minimal
priority. -/

/-- `MAX_CONCURRENT_DOWNLOADS` from scheduler.rs line 8. -/
def MAX_CONCURRENT_DOWNLOADS : Nat := 6

/-- `TileRequest` from scheduler.rs lines 11-16. -/
structure TileRequest where
  id : TileId
  priority : ℚ
  requestTime : ℚ
deriving DecidableEq, Repr

/-- `TileScheduler` from scheduler.rs lines 42-55. -/
structure TileScheduler where
  queue : List TileRequest
  activeDownloads : List (TileId × ℚ)
  downloadTimeout : ℚ
  lastUpdateTime : ℚ
deriving DecidableEq, Repr

/-- `TileScheduler::default` (scheduler.rs lines 57-66). -/
def TileScheduler.init : TileScheduler :=
  { queue := [], activeDownloads := [], downloadTimeout := 10, lastUpdateTime := 0 }

/-- `TileScheduler::queue_request` (scheduler.rs lines 70-102): ignore ids
already downloading; if the id is already queued, rebuild the queue with the
entry's priority raised to `max` of old and new (keeping its original
`request_time`); otherwise push a fresh request. -/
def TileScheduler.queueRequest (s : TileScheduler) (id : TileId)
    (priority currentTime : ℚ) : TileScheduler :=
  if s.activeDownloads.any fun p => p.1 = id then s
  else if s.queue.any fun r => r.id = id then
    { s with queue := s.queue.map fun r =>
        if r.id = id then { r with priority := max priority r.priority } else r }
  else
    { s with queue := s.queue ++ [⟨id, priority, currentTime⟩] }

/-- Pop the first minimal-priority request (what `BinaryHeap::pop` yields
under `TileRequest`'s reversed ordering). -/
def popMinRequest : List TileRequest → Option (TileRequest × List TileRequest)
  | [] => none
  | r :: rest =>
    match popMinRequest rest with
    | none => some (r, [])
    | some (m, rest') =>
        if r.priority ≤ m.priority then some (r, rest) else some (m, r :: rest')

/-- The dispatch loop inside `get_next_batch`: up to `slots` times, pop a
request, move its id into `active_downloads` (stamped with the current
time) and append it to the batch. -/
def dispatchLoop (t : ℚ) : Nat → TileScheduler → List TileId × TileScheduler
  | 0, s => ([], s)
  | n + 1, s =>
    match popMinRequest s.queue with
    | none => ([], s)
    | some (req, rest) =>
        let s' : TileScheduler :=
          { s with queue := rest,
                   activeDownloads := mapInsert s.activeDownloads req.id t }
        let p := dispatchLoop t n s'
        (req.id :: p.1, p.2)

/-- The first phase of `get_next_batch`: record the update time and drop
active downloads older than `download_timeout` (freeing their slots). -/
def TileScheduler.purgeTimedOut (s : TileScheduler) (currentTime : ℚ) :
    TileScheduler :=
  { s with lastUpdateTime := currentTime,
           activeDownloads := s.activeDownloads.filter fun p =>
             ¬ (currentTime - p.2 > s.downloadTimeout) }

/-- `TileScheduler::get_next_batch` (scheduler.rs lines 105-143): record the
update time, drop downloads older than `download_timeout`, compute the free
slots under `MAX_CONCURRENT_DOWNLOADS`, and dispatch that many queued
requests. -/
def TileScheduler.getNextBatch (s : TileScheduler) (currentTime : ℚ) :
    List TileId × TileScheduler :=
  let s1 := s.purgeTimedOut currentTime
  let slots := MAX_CONCURRENT_DOWNLOADS - s1.activeDownloads.length
  if slots = 0 then ([], s1)
  else dispatchLoop currentTime slots s1

/-- `TileScheduler::mark_completed` (scheduler.rs lines 146-148). -/
def TileScheduler.markCompleted (s : TileScheduler) (id : TileId) : TileScheduler :=
  { s with activeDownloads := mapRemove s.activeDownloads id }

/-- One externally visible scheduler operation. -/
inductive SchedulerOp where
  | queueReq (id : TileId) (priority time : ℚ)
  | nextBatch (time : ℚ)
  | complete (id : TileId)

/-- Apply one operation (the batch result of `get_next_batch` is discarded,
only the state evolves). -/
def SchedulerOp.apply (s : TileScheduler) : SchedulerOp → TileScheduler
  | .queueReq id p t => s.queueRequest id p t
  | .nextBatch t => (s.getNextBatch t).2
  | .complete id => s.markCompleted id

/-- Run a sequence of scheduler operations from a starting state. -/
def runSchedulerOps (ops : List SchedulerOp) (s : TileScheduler) : TileScheduler :=
  ops.foldl SchedulerOp.apply s

/-! ## Loader retry loop (`src/osm/cache.rs::load_tile_image`)

The HTTP client and the image decoder are external; attempt `n`'s network
outcome is given by an oracle `responses : Nat → NetResponse` and decoding
by `decodeImage`.  `load_tile_image` first consults the disk cache
(`cached` here); on a miss it loops `for attempt in 0..max_retries` with
`max_retries = 2`, treating every failure alike (non-2xx status — including
404 — request errors, body-read errors and undecodable bytes all just set
`last_error` and continue); the first decodable success is saved to the
disk cache (`save_tile_to_cache`) and returned. -/

/-- What one network attempt produced: a 2xx response whose body was read
(`success`), a non-success HTTP status (404 included), a body-read failure,
or a request/connection error. -/
inductive NetResponse where
  | success (bytes : List Nat)
  | httpError (status : Nat)
  | bytesError
  | requestError
deriving DecidableEq, Repr

/-- Loader outcome, with the decoded image on success. -/
inductive LoadOutcome where
  | loaded (img : List Nat)
  | failed
deriving DecidableEq, Repr

/-- Observable trace of one `load_tile_image` call: the outcome, how many
network attempts were made, and whether `save_tile_to_cache` ran. -/
structure LoadTrace where
  outcome : LoadOutcome
  attempts : Nat
  persisted : Bool
deriving DecidableEq, Repr

/-- The `for attempt in 0..max_retries` loop of `load_tile_image`
(osm/cache.rs lines 74-131), with `remaining` attempts left and `attempt`
attempts already made. -/
def loadAttempts (decodeImage : List Nat → Option (List Nat))
    (responses : Nat → NetResponse) : Nat → Nat → LoadTrace
  | attempt, 0 => ⟨.failed, attempt, false⟩
  | attempt, remaining + 1 =>
    match responses attempt with
    | .success bytes =>
      match decodeImage bytes with
      | some img => ⟨.loaded img, attempt + 1, true⟩
      | none => loadAttempts decodeImage responses (attempt + 1) remaining
    | _ => loadAttempts decodeImage responses (attempt + 1) remaining

/-- `load_tile_image` (osm/cache.rs lines 54-132): disk-cache hit short
circuits; otherwise run at most `max_retries = 2` network attempts. -/
def loadTileImage (decodeImage : List Nat → Option (List Nat))
    (cached : Option (List Nat)) (responses : Nat → NetResponse) : LoadTrace :=
  match cached with
  | some img => ⟨.loaded img, 0, false⟩
  | none => loadAttempts decodeImage responses 0 2

/-- Response oracle: a 404 on the first attempt, a valid payload on the
second. -/
def notFoundThenOk : Nat → NetResponse :=
  fun n => if n = 0 then .httpError 404 else .success [7]

/-- Response oracle: connection errors on the first two attempts, a valid
payload on the third. -/
def twoTransientThenOk : Nat → NetResponse :=
  fun n => if n ≤ 1 then .requestError else .success [7]

/-- A concrete view oracle: exactly the quadtree ancestors of tile
(4216, 2668) at zoom 13 intersect the view. -/
def visOracle13 : TileId → Bool :=
  fun id => decide ((TileId.mk 13 4216 2668).ancAt id.zoom = id)

/-! ## Theorems -/

/-- C9: a `Tile` in the `Loaded` state is never demoted: `set_loading` and
`set_failed` leave it entirely unchanged (same state, entity and load
time). -/
theorem loaded_tile_never_demoted (t : Tile) (e lt : Nat)
    (h : t.state = .loaded e lt) : t.setLoading = t ∧ t.setFailed = t := by
  cases t with
  | mk i s lv ts ch =>
    cases s <;> first
      | exact ⟨rfl, rfl⟩
      | simp [Tile.state] at h

/-- Witness for C9 at a concrete loaded tile. -/
theorem loaded_tile_never_demoted_witness :
    (Tile.mk ⟨1, 2, 3⟩ (.loaded 5 7) 0 0 none).setLoading
        = Tile.mk ⟨1, 2, 3⟩ (.loaded 5 7) 0 0 none ∧
    (Tile.mk ⟨1, 2, 3⟩ (.loaded 5 7) 0 0 none).setFailed
        = Tile.mk ⟨1, 2, 3⟩ (.loaded 5 7) 0 0 none :=
  loaded_tile_never_demoted _ 5 7 rfl

/-- C5: whenever `TileCache::insert` accepts a payload (returns `Ok`), an
immediately following `get` on the same address returns exactly the inserted
bytes. -/
theorem cache_insert_get_roundtrip (decodeOk : List Nat → Bool) (c : TileCache)
    (id : TileId) (data : List Nat) (t : Nat)
    (h : (c.insert decodeOk id data t).1 = .ok ()) :
    (c.insert decodeOk id data t).2.get id = some data := by
  unfold TileCache.insert at h ⊢
  by_cases hd : decodeOk data
  · simp [hd, TileCache.get, mapLookup, mapInsert, List.find?]
  · simp [hd] at h

/-- Witness for C5: inserting into the empty cache under an accepting
decoder. -/
theorem cache_insert_get_roundtrip_witness :
    (TileCache.empty.insert (fun _ => true) ⟨3, 1, 2⟩ [9, 8] 4).2.get ⟨3, 1, 2⟩
      = some [9, 8] :=
  cache_insert_get_roundtrip (fun _ => true) TileCache.empty ⟨3, 1, 2⟩ [9, 8] 4 rfl

/-- C6: `TileCache::insert` fails exactly when the bytes do not decode as an
image (with `LoadError("Invalid image data")`), and on that failure the
cache state is unchanged, so the rejected payload is never served later. -/
theorem cache_insert_rejects_invalid (decodeOk : List Nat → Bool) (c : TileCache)
    (id : TileId) (data : List Nat) (t : Nat) :
    ((c.insert decodeOk id data t).1
        = .error (.loadError "Invalid image data") ↔ decodeOk data = false) ∧
    (decodeOk data = false → (c.insert decodeOk id data t).2 = c) := by
  unfold TileCache.insert
  by_cases hd : decodeOk data <;> simp [hd]

/-- Witness for C6: a rejecting decoder leaves a nonempty cache untouched
and reports the invalid-data error. -/
theorem cache_insert_rejects_invalid_witness :
    ((TileCache.mk [(⟨1, 0, 0⟩, [5])] [(⟨1, 0, 0⟩, 2)] []).insert
        (fun _ => false) ⟨2, 1, 1⟩ [7] 3).1
      = .error (.loadError "Invalid image data") ∧
    ((TileCache.mk [(⟨1, 0, 0⟩, [5])] [(⟨1, 0, 0⟩, 2)] []).insert
        (fun _ => false) ⟨2, 1, 1⟩ [7] 3).2
      = TileCache.mk [(⟨1, 0, 0⟩, [5])] [(⟨1, 0, 0⟩, 2)] [] := by
  have h := cache_insert_rejects_invalid (fun _ => false)
    (TileCache.mk [(⟨1, 0, 0⟩, [5])] [(⟨1, 0, 0⟩, 2)] []) ⟨2, 1, 1⟩ [7] 3
  exact ⟨h.1.mpr rfl, h.2 rfl⟩

/-- If a key has no binding, `mapRemove` is the identity. -/
theorem mapRemove_of_lookup_none {α β : Type} [DecidableEq α]
    (l : List (α × β)) (k : α) (h : mapLookup l k = none) :
    mapRemove l k = l := by
  unfold mapLookup at h
  unfold mapRemove
  rw [Option.map_eq_none'] at h
  rw [List.find?_eq_none] at h
  exact List.filter_eq_self.mpr fun p hp => by
    simpa using h p hp

/-- `mapRemove` is idempotent. -/
theorem mapRemove_idem {α β : Type} [DecidableEq α] (l : List (α × β)) (k : α) :
    mapRemove (mapRemove l k) k = mapRemove l k := by
  unfold mapRemove
  rw [List.filter_filter]
  exact List.filter_congr fun p _ => by simp

/-- C8: removing an address that is not in the cache returns no payload and
leaves the cache exactly as it was (no error is possible — `remove` is
total), and removing the same address twice leaves the same cache state as
removing it once. -/
theorem cache_remove_idempotent (c : TileCache) (id : TileId)
    (h1 : c.get id = none) (h2 : mapLookup c.lastAccess id = none) :
    (c.remove id).1 = none ∧ (c.remove id).2 = c ∧
    ((c.remove id).2.remove id).2 = (c.remove id).2 := by
  unfold TileCache.get at h1
  refine ⟨h1, ?_, ?_⟩
  · unfold TileCache.remove
    rw [mapRemove_of_lookup_none _ _ h1, mapRemove_of_lookup_none _ _ h2]
  · unfold TileCache.remove
    simp [mapRemove_idem]

/-- Witness for C8: removing an absent address from a nonempty cache. -/
theorem cache_remove_idempotent_witness :
    ((TileCache.mk [(⟨1, 0, 0⟩, [5])] [(⟨1, 0, 0⟩, 2)] []).remove ⟨2, 1, 1⟩).1
      = none ∧
    ((TileCache.mk [(⟨1, 0, 0⟩, [5])] [(⟨1, 0, 0⟩, 2)] []).remove ⟨2, 1, 1⟩).2
      = TileCache.mk [(⟨1, 0, 0⟩, [5])] [(⟨1, 0, 0⟩, 2)] [] ∧
    ((((TileCache.mk [(⟨1, 0, 0⟩, [5])] [(⟨1, 0, 0⟩, 2)] []).remove
        ⟨2, 1, 1⟩).2).remove ⟨2, 1, 1⟩).2
      = ((TileCache.mk [(⟨1, 0, 0⟩, [5])] [(⟨1, 0, 0⟩, 2)] []).remove ⟨2, 1, 1⟩).2 :=
  cache_remove_idempotent (TileCache.mk [(⟨1, 0, 0⟩, [5])] [(⟨1, 0, 0⟩, 2)] [])
    ⟨2, 1, 1⟩ (by decide) (by decide)

/-- C2 counterexample: `load_tile_image` does not treat a 404 as
definitive — after a `NotFound` first response it makes a second attempt
and returns `Loaded`; and because `max_retries = 2` there is no third
attempt, so two transient failures followed by an (unreached) success
still return `Failed`. -/
theorem loader_retry_counterexample :
    loadTileImage some none notFoundThenOk = ⟨.loaded [7], 2, true⟩ ∧
    loadTileImage some none twoTransientThenOk = ⟨.failed, 2, false⟩ := by
  constructor <;> rfl

/-- C2 amended: `load_tile_image` retries every failure kind alike, at most
twice in total.  On a cache miss it makes at most 2 network attempts; if the
first attempt fails in any way (404 included) and the second yields
decodable bytes, it returns `Loaded` after exactly 2 attempts and persists
the image to the disk cache; if both attempts fail it returns `Failed`
after exactly 2 attempts with nothing persisted. -/
theorem loader_retries_once (decodeImage : List Nat → Option (List Nat))
    (responses : Nat → NetResponse) (bytes img : List Nat)
    (hfail : ∀ b, responses 0 = .success b → decodeImage b = none)
    (hsucc : responses 1 = .success bytes) (hdec : decodeImage bytes = some img) :
    (loadTileImage decodeImage none responses).attempts ≤ 2 ∧
    loadTileImage decodeImage none responses = ⟨.loaded img, 2, true⟩ := by
  cases h0 : responses 0 with
  | success b =>
      simp [loadTileImage, loadAttempts, h0, hfail b h0, hsucc, hdec]
  | httpError s =>
      simp [loadTileImage, loadAttempts, h0, hsucc, hdec]
  | bytesError =>
      simp [loadTileImage, loadAttempts, h0, hsucc, hdec]
  | requestError =>
      simp [loadTileImage, loadAttempts, h0, hsucc, hdec]

/-- Witness for the amended C2 at the concrete 404-then-success oracle. -/
theorem loader_retries_once_witness :
    (loadTileImage some none notFoundThenOk).attempts ≤ 2 ∧
    loadTileImage some none notFoundThenOk = ⟨.loaded [7], 2, true⟩ :=
  loader_retries_once some notFoundThenOk [7] [7]
    (fun b hb => by simp [notFoundThenOk] at hb) rfl rfl

/-- C3: re-submitting an already queued address with a lower priority
neither duplicates the entry nor lowers its priority: the queue afterwards
holds exactly one request for that address, carrying the original (higher)
priority and its original request time. -/
theorem resubmission_max_wins (s : TileScheduler) (a : TileId) (p1 p2 t1 t2 : ℚ)
    (hactive : ∀ p ∈ s.activeDownloads, p.1 ≠ a)
    (hqueue : ∀ r ∈ s.queue, r.id ≠ a) (hlt : p2 < p1) :
    (((s.queueRequest a p1 t1).queueRequest a p2 t2).queue.filter
        fun r => r.id = a) = [⟨a, p1, t1⟩] := by
  have hact : (s.activeDownloads.any fun p => decide (p.1 = a)) = false := by
    simp only [List.any_eq_false, decide_eq_true_eq]
    exact hactive
  have hq1 : (s.queue.any fun r => decide (r.id = a)) = false := by
    simp only [List.any_eq_false, decide_eq_true_eq]
    exact hqueue
  unfold TileScheduler.queueRequest
  simp only [hact, hq1, Bool.false_eq_true, if_false]
  have hq2 : (((s.queue ++ [⟨a, p1, t1⟩] : List TileRequest)).any
      fun r => decide (r.id = a)) = true := by
    simp
  simp only [hq2, if_true, List.map_append]
  have hmap : (s.queue.map fun r =>
      if r.id = a then { r with priority := max p2 r.priority } else r) = s.queue := by
    conv_rhs => rw [← List.map_id s.queue]
    apply List.map_congr_left
    intro r hr
    rw [if_neg (hqueue r hr)]
    rfl
  rw [hmap]
  rw [List.filter_append]
  have hfilt : (s.queue.filter fun r => decide (r.id = a)) = [] := by
    rw [List.filter_eq_nil_iff]
    intro r hr
    simpa using hqueue r hr
  rw [hfilt]
  simp [max_eq_right hlt.le]

/-- Witness for C3: submit priority 2 then priority 1 for the same address
into the fresh scheduler. -/
theorem resubmission_max_wins_witness :
    (((TileScheduler.init.queueRequest ⟨5, 1, 2⟩ 2 0).queueRequest
        ⟨5, 1, 2⟩ 1 3).queue.filter fun r => r.id = ⟨5, 1, 2⟩)
      = [⟨⟨5, 1, 2⟩, 2, 0⟩] :=
  resubmission_max_wins TileScheduler.init ⟨5, 1, 2⟩ 2 1 0 3
    (by intro p hp; simp [TileScheduler.init] at hp)
    (by intro r hr; simp [TileScheduler.init] at hr)
    (by norm_num)

/-- `mapInsert` grows the list by at most one entry. -/
theorem mapInsert_length_le {α β : Type} [DecidableEq α]
    (l : List (α × β)) (k : α) (v : β) :
    (mapInsert l k v).length ≤ l.length + 1 := by
  unfold mapInsert
  simpa using Nat.add_le_add_right (List.length_filter_le _ l) 1

/-- The dispatch loop emits at most `n` tile ids and grows the active set by
at most `n` entries. -/
theorem dispatchLoop_bounds (t : ℚ) :
    ∀ (n : Nat) (s : TileScheduler),
      (dispatchLoop t n s).1.length ≤ n ∧
      (dispatchLoop t n s).2.activeDownloads.length ≤
        s.activeDownloads.length + n := by
  intro n
  induction n with
  | zero => intro s; simp [dispatchLoop]
  | succ n ih =>
    intro s
    unfold dispatchLoop
    cases hp : popMinRequest s.queue with
    | none => simp
    | some pr =>
      obtain ⟨req, rest⟩ := pr
      simp only
      set s' : TileScheduler :=
        { s with queue := rest,
                 activeDownloads := mapInsert s.activeDownloads req.id t } with hs'
      refine ⟨by simpa using Nat.add_le_add_right (ih s').1 1, ?_⟩
      calc (dispatchLoop t n s').2.activeDownloads.length
          ≤ s'.activeDownloads.length + n := (ih s').2
        _ ≤ (s.activeDownloads.length + 1) + n := by
            exact Nat.add_le_add_right (mapInsert_length_le _ _ _) n
        _ = s.activeDownloads.length + (n + 1) := by omega

/-- `queue_request` never touches the active-download set. -/
theorem queueRequest_activeDownloads (s : TileScheduler) (id : TileId)
    (p t : ℚ) :
    (s.queueRequest id p t).activeDownloads = s.activeDownloads := by
  unfold TileScheduler.queueRequest
  split_ifs <;> rfl

/-- One `get_next_batch` call keeps the active set within the concurrency
bound and returns at most the number of free slots. -/
theorem getNextBatch_bounds (s : TileScheduler) (t : ℚ)
    (h : s.activeDownloads.length ≤ MAX_CONCURRENT_DOWNLOADS) :
    (s.getNextBatch t).1.length ≤
      MAX_CONCURRENT_DOWNLOADS - (s.purgeTimedOut t).activeDownloads.length ∧
    (s.getNextBatch t).2.activeDownloads.length ≤ MAX_CONCURRENT_DOWNLOADS := by
  have hpurge : (s.purgeTimedOut t).activeDownloads.length ≤
      s.activeDownloads.length := List.length_filter_le _ _
  unfold TileScheduler.getNextBatch
  by_cases hz : MAX_CONCURRENT_DOWNLOADS -
      (s.purgeTimedOut t).activeDownloads.length = 0
  · simp only [hz, if_true]
    exact ⟨by simp, le_trans hpurge h⟩
  · simp only [hz, if_false]
    refine ⟨(dispatchLoop_bounds t _ _).1, ?_⟩
    calc (dispatchLoop t _ (s.purgeTimedOut t)).2.activeDownloads.length
        ≤ (s.purgeTimedOut t).activeDownloads.length +
            (MAX_CONCURRENT_DOWNLOADS -
              (s.purgeTimedOut t).activeDownloads.length) :=
          (dispatchLoop_bounds t _ _).2
      _ ≤ MAX_CONCURRENT_DOWNLOADS := by omega

/-- Every reachable scheduler state respects the concurrency bound. -/
theorem runSchedulerOps_invariant (ops : List SchedulerOp) :
    ∀ s : TileScheduler,
      s.activeDownloads.length ≤ MAX_CONCURRENT_DOWNLOADS →
      (runSchedulerOps ops s).activeDownloads.length ≤ MAX_CONCURRENT_DOWNLOADS := by
  induction ops with
  | nil => intro s h; exact h
  | cons op rest ih =>
    intro s h
    refine ih _ ?_
    cases op with
    | queueReq id p t => rw [SchedulerOp.apply, queueRequest_activeDownloads]; exact h
    | nextBatch t => exact (getNextBatch_bounds s t h).2
    | complete id =>
        exact le_trans (List.length_filter_le _ _) h

/-- C4: starting from the fresh scheduler, after any sequence of
`queue_request` / `get_next_batch` / `mark_completed` operations the set of
in-flight downloads never exceeds `MAX_CONCURRENT_DOWNLOADS`, and a further
`get_next_batch` returns at most (maximum − currently active) addresses,
where "currently active" counts the downloads still alive after the
timeout purge that begins the call. -/
theorem scheduler_concurrency_bound (ops : List SchedulerOp) (t : ℚ) :
    (runSchedulerOps ops TileScheduler.init).activeDownloads.length ≤
      MAX_CONCURRENT_DOWNLOADS ∧
    ((runSchedulerOps ops TileScheduler.init).getNextBatch t).1.length ≤
      MAX_CONCURRENT_DOWNLOADS -
        ((runSchedulerOps ops TileScheduler.init).purgeTimedOut
          t).activeDownloads.length := by
  have hinv := runSchedulerOps_invariant ops TileScheduler.init
    (by simp [TileScheduler.init])
  exact ⟨hinv, (getNextBatch_bounds _ t hinv).1⟩

/-- Membership in the adjacency list comes from some offset pair. -/
theorem mem_adjacent_iff (t a : TileId) :
    a ∈ t.getAdjacentTiles ↔
      ∃ dx ∈ ([-1, 0, 1] : List Int), ∃ dy ∈ ([-1, 0, 1] : List Int),
        t.adjCandidate dx dy = some a := by
  unfold TileId.getAdjacentTiles
  constructor
  · intro h
    obtain ⟨l, hl, hal⟩ := List.mem_flatten.mp h
    obtain ⟨dx, hdx, rfl⟩ := List.mem_map.mp hl
    obtain ⟨dy, hdy, hc⟩ := List.mem_filterMap.mp hal
    exact ⟨dx, hdx, dy, hdy, hc⟩
  · rintro ⟨dx, hdx, dy, hdy, h⟩
    exact List.mem_flatten.mpr
      ⟨_, List.mem_map_of_mem _ hdx, List.mem_filterMap.mpr ⟨dy, hdy, h⟩⟩

/-- Inversion of a successful `adjCandidate`. -/
theorem adjCandidate_eq_some (t : TileId) (dx dy : Int) (a : TileId)
    (h : t.adjCandidate dx dy = some a) :
    ¬ (dx = 0 ∧ dy = 0) ∧ 0 ≤ (t.y : Int) + dy ∧
    (t.y : Int) + dy < 2 ^ t.zoom ∧
    a = ⟨t.zoom, (((t.x : Int) + dx) % 2 ^ t.zoom).toNat,
         ((t.y : Int) + dy).toNat⟩ := by
  unfold TileId.adjCandidate at h
  split_ifs at h with h1 h2
  push_neg at h2
  exact ⟨h1, h2.1, h2.2, (Option.some_inj.mp h).symm⟩

/-- C10 counterexample: at zoom 0 the east/west wraparound makes both
horizontal neighbours coincide with the tile itself, so
`get_adjacent_tiles` of the world tile returns the tile itself (twice). -/
theorem adjacent_tiles_zoom0_counterexample :
    (TileId.mk 0 0 0).getAdjacentTiles
        = [TileId.mk 0 0 0, TileId.mk 0 0 0] ∧
    TileId.mk 0 0 0 ∈ (TileId.mk 0 0 0).getAdjacentTiles := by
  constructor <;> decide

/-- C10 amended: for every in-range `TileId`, `get_adjacent_tiles` returns
at most 8 tiles, all at the same zoom and all in range
(`x` wraps modulo `2^zoom`, out-of-range `y` rows are omitted); and
provided `zoom ≥ 1` the tile itself is never among them (at zoom 0 the
x-wraparound returns the tile itself). -/
theorem adjacent_tiles_amended (t : TileId)
    (hx : t.x < 2 ^ t.zoom) (hy : t.y < 2 ^ t.zoom) :
    t.getAdjacentTiles.length ≤ 8 ∧
    (∀ a ∈ t.getAdjacentTiles,
      a.zoom = t.zoom ∧ a.x < 2 ^ t.zoom ∧ a.y < 2 ^ t.zoom) ∧
    (1 ≤ t.zoom → t ∉ t.getAdjacentTiles) := by
  have hM : ((2 ^ t.zoom : Nat) : Int) = 2 ^ t.zoom := by push_cast; ring
  have hMpos : (0 : Int) < 2 ^ t.zoom := by positivity
  refine ⟨?_, ?_, ?_⟩
  · -- length bound: the dx = 0 column contributes at most 2 entries
    have h00 : t.adjCandidate 0 0 = none := by simp [TileId.adjCandidate]
    unfold TileId.getAdjacentTiles
    simp only [List.map_cons, List.map_nil, List.flatten, List.append_nil,
      List.length_append]
    have l1 := List.length_filterMap_le (fun dy => t.adjCandidate (-1) dy)
      [-1, 0, 1]
    have l3 := List.length_filterMap_le (fun dy => t.adjCandidate 1 dy)
      [-1, 0, 1]
    have l2 : (List.filterMap (fun dy => t.adjCandidate 0 dy)
        ([-1, 0, 1] : List Int)).length ≤ 2 := by
      cases hA : t.adjCandidate 0 (-1) <;> cases hB : t.adjCandidate 0 1 <;>
        simp [List.filterMap_cons, hA, hB, h00]
    simp at l1 l3
    omega
  · intro a ha
    rw [mem_adjacent_iff] at ha
    obtain ⟨dx, _, dy, _, h⟩ := ha
    obtain ⟨-, hge, hlt, rfl⟩ := adjCandidate_eq_some t dx dy _ h
    have h1 := Int.emod_nonneg ((t.x : Int) + dx) (ne_of_gt hMpos)
    have h2 := Int.emod_lt_of_pos ((t.x : Int) + dx) hMpos
    refine ⟨rfl, ?_, ?_⟩ <;> dsimp only <;> omega
  · intro hzoom hmem
    rw [mem_adjacent_iff] at hmem
    obtain ⟨dx, hdx, dy, hdy, h⟩ := hmem
    obtain ⟨hnz, hge, hlt, heq⟩ := adjCandidate_eq_some t dx dy _ h
    have hzoomle : (2 : Int) ≤ 2 ^ t.zoom := by
      calc (2 : Int) = 2 ^ 1 := by norm_num
        _ ≤ 2 ^ t.zoom := pow_le_pow_right₀ (by norm_num) hzoom
    have hxeq : (((t.x : Int) + dx) % 2 ^ t.zoom).toNat = t.x := by
      have hc := congrArg TileId.x heq
      dsimp only at hc
      exact hc.symm
    have hyeq : ((t.y : Int) + dy).toNat = t.y := by
      have hc := congrArg TileId.y heq
      dsimp only at hc
      exact hc.symm
    -- dy must be 0 (otherwise the y coordinate changed)
    have hdy0 : dy = 0 := by
      simp only [List.mem_cons, List.not_mem_nil, or_false] at hdy
      rcases hdy with rfl | rfl | rfl
      · omega
      · rfl
      · omega
    subst hdy0
    -- hence dx = ±1 and the x-wrap must be a fixed point, forcing 2^zoom ∣ 1
    have hdx1 : dx = 1 ∨ dx = -1 := by
      simp only [List.mem_cons, List.not_mem_nil, or_false] at hdx
      rcases hdx with rfl | rfl | rfl
      · right; rfl
      · exact absurd ⟨rfl, rfl⟩ hnz
      · left; rfl
    have h1 := Int.emod_nonneg ((t.x : Int) + dx) (ne_of_gt hMpos)
    have hself : ((t.x : Int) + dx) % 2 ^ t.zoom = (t.x : Int) := by omega
    have hxmod : (t.x : Int) % 2 ^ t.zoom = (t.x : Int) :=
      Int.emod_eq_of_lt (by positivity) (by omega)
    have hdvd : (2 ^ t.zoom : Int) ∣ dx := by
      have hsub := Int.emod_eq_emod_iff_emod_sub_eq_zero.mp
        (hself.trans hxmod.symm)
      have hd := Int.dvd_of_emod_eq_zero hsub
      simpa using hd
    have hdvd1 : (2 ^ t.zoom : Int) ∣ 1 := by
      rcases hdx1 with rfl | rfl
      · exact hdvd
      · exact (Int.dvd_neg).mp hdvd
    have := Int.le_of_dvd (by norm_num) hdvd1
    omega

/-- Witness for the amended C10 at a zoom-2 corner tile. -/
theorem adjacent_tiles_amended_witness :
    (TileId.mk 2 0 0).getAdjacentTiles.length ≤ 8 ∧
    (∀ a ∈ (TileId.mk 2 0 0).getAdjacentTiles,
      a.zoom = 2 ∧ a.x < 2 ^ 2 ∧ a.y < 2 ^ 2) ∧
    (1 ≤ 2 → TileId.mk 2 0 0 ∉ (TileId.mk 2 0 0).getAdjacentTiles) :=
  adjacent_tiles_amended (TileId.mk 2 0 0) (by decide) (by decide)

/-! ### Quadtree ancestor arithmetic -/

/-- A tile is its own ancestor at its own zoom. -/
theorem ancAt_self (d : TileId) : d.ancAt d.zoom = d := by
  simp [TileId.ancAt]

/-- Taking ancestors composes: the ancestor-at-`z2` of the ancestor-at-`z1`
is the ancestor-at-`z2`. -/
theorem ancAt_ancAt (d : TileId) (z1 z2 : Nat) (h1 : z2 ≤ z1)
    (h2 : z1 ≤ d.zoom) : (d.ancAt z1).ancAt z2 = d.ancAt z2 := by
  unfold TileId.ancAt
  have hz : d.zoom - z1 + (z1 - z2) = d.zoom - z2 := by omega
  simp only [Nat.div_div_eq_div_mul, ← pow_add, hz]

/-- `weakDesc` is transitive. -/
theorem weakDesc_trans {a b c : TileId} (h1 : a.weakDesc b)
    (h2 : b.weakDesc c) : a.weakDesc c := by
  obtain ⟨hz1, he1⟩ := h1
  obtain ⟨hz2, he2⟩ := h2
  refine ⟨le_trans hz1 hz2, ?_⟩
  rw [← ancAt_ancAt c b.zoom a.zoom hz1 hz2, he2, he1]

/-- Every tile in `childIds p` is a weak descendant of `p`. -/
theorem childIds_weakDesc (p c : TileId) (hc : c ∈ p.childIds) :
    p.weakDesc c := by
  simp only [TileId.childIds, List.mem_cons, List.not_mem_nil, or_false] at hc
  rcases hc with rfl | rfl | rfl | rfl <;>
    refine ⟨by simp, ?_⟩ <;>
    simp [TileId.ancAt, TileId.weakDesc, Nat.mul_add_div,
      Nat.mul_div_cancel_left]

/-- Every tile in `childIds p` sits one zoom level below `p`. -/
theorem childIds_zoom (p c : TileId) (hc : c ∈ p.childIds) :
    c.zoom = p.zoom + 1 := by
  simp only [TileId.childIds, List.mem_cons, List.not_mem_nil, or_false] at hc
  rcases hc with rfl | rfl | rfl | rfl <;> rfl

/-- Weak descendants of two distinct children of the same parent never
stand in the strict-ancestor relation. -/
theorem sibling_desc_not_ancestor {p ci cj d1 d2 : TileId}
    (hci : ci ∈ p.childIds) (hcj : cj ∈ p.childIds) (hne : ci ≠ cj)
    (h1 : ci.weakDesc d1) (h2 : cj.weakDesc d2) :
    ¬ d1.isStrictAncestorOf d2 := by
  rintro ⟨hz, hanc⟩
  have hzi := childIds_zoom p ci hci
  have hzj := childIds_zoom p cj hcj
  -- d1 is a weak ancestor of d2, so d2's ancestor at level p.zoom+1 can be
  -- computed through d1 and equals ci — but through cj it equals cj.
  have key : d2.ancAt ci.zoom = ci := by
    have : (d2.ancAt d1.zoom).ancAt ci.zoom = d2.ancAt ci.zoom :=
      ancAt_ancAt d2 d1.zoom ci.zoom h1.1 (le_of_lt hz)
    rw [hanc] at this
    rw [← this, h1.2]
  have key2 : d2.ancAt cj.zoom = cj := h2.2
  rw [hzi] at key
  rw [hzj] at key2
  exact hne (key.symm.trans key2)

/-- The children of a tile are pairwise distinct. -/
theorem childIds_pairwise_ne (p : TileId) : p.childIds.Pairwise (· ≠ ·) := by
  simp only [TileId.childIds]
  refine List.Pairwise.cons ?_ (List.Pairwise.cons ?_
    (List.Pairwise.cons ?_ (List.pairwise_singleton _ _))) <;>
    intro b hb <;>
    simp only [List.mem_cons, List.not_mem_nil, or_false] at hb <;>
    rcases hb with rfl | rfl | rfl <;>
    intro hcontra <;>
    first
      | exact absurd (congrArg TileId.x hcontra) (by dsimp; omega)
      | exact absurd (congrArg TileId.y hcontra) (by dsimp; omega)

/-- `weakDesc` is reflexive. -/
theorem weakDesc_refl (a : TileId) : a.weakDesc a :=
  ⟨le_refl _, ancAt_self a⟩

/-- Weak descendants of distinct siblings are unrelated in both
directions. -/
theorem cross_noAnc {p ci cj : TileId} (hci : ci ∈ p.childIds)
    (hcj : cj ∈ p.childIds) (hne : ci ≠ cj) {a b : TileId}
    (ha : ci.weakDesc a) (hb : cj.weakDesc b) : noAncestorPair a b :=
  ⟨sibling_desc_not_ancestor hci hcj hne ha hb,
   sibling_desc_not_ancestor hcj hci hne.symm hb ha⟩

/-- On a well-formed subtree, every collected tile is a weak descendant of
the subtree's root tile, and the collected list never contains a strict
ancestor together with one of its descendants. -/
theorem collect_desc_pairwise (mz : Nat) :
    ∀ n : QuadTreeNode, n.wfB = true →
      (∀ x ∈ n.collectVisibleTiles mz, n.tileId.weakDesc x) ∧
      (n.collectVisibleTiles mz).Pairwise noAncestorPair := by
  intro n
  induction n with
  | leaf id v ld =>
    intro _
    constructor
    · intro x hx
      simp only [QuadTreeNode.collectVisibleTiles] at hx
      split_ifs at hx
      all_goals first
        | exact absurd hx (List.not_mem_nil x)
        | (simp only [List.mem_singleton] at hx; subst hx;
           exact weakDesc_refl _)
    · simp only [QuadTreeNode.collectVisibleTiles]
      split_ifs <;> simp
  | node id v ld c0 c1 c2 c3 ih0 ih1 ih2 ih3 =>
    intro hwf
    simp only [QuadTreeNode.wfB, Bool.and_eq_true, decide_eq_true_eq] at hwf
    obtain ⟨⟨⟨⟨⟨⟨⟨h0, h1⟩, h2⟩, h3⟩, w0⟩, w1⟩, w2⟩, w3⟩ := hwf
    have m0 : c0.tileId ∈ id.childIds := by rw [h0]; simp [TileId.childIds]
    have m1 : c1.tileId ∈ id.childIds := by rw [h1]; simp [TileId.childIds]
    have m2 : c2.tileId ∈ id.childIds := by rw [h2]; simp [TileId.childIds]
    have m3 : c3.tileId ∈ id.childIds := by rw [h3]; simp [TileId.childIds]
    have ne01 : c0.tileId ≠ c1.tileId := by
      rw [h0, h1]; intro h; injection h with e1 e2 e3; omega
    have ne02 : c0.tileId ≠ c2.tileId := by
      rw [h0, h2]; intro h; injection h with e1 e2 e3; omega
    have ne03 : c0.tileId ≠ c3.tileId := by
      rw [h0, h3]; intro h; injection h with e1 e2 e3; omega
    have ne12 : c1.tileId ≠ c2.tileId := by
      rw [h1, h2]; intro h; injection h with e1 e2 e3; omega
    have ne13 : c1.tileId ≠ c3.tileId := by
      rw [h1, h3]; intro h; injection h with e1 e2 e3; omega
    have ne23 : c2.tileId ≠ c3.tileId := by
      rw [h2, h3]; intro h; injection h with e1 e2 e3; omega
    have D0 := (ih0 w0).1
    have D1 := (ih1 w1).1
    have D2 := (ih2 w2).1
    have D3 := (ih3 w3).1
    have P0 := (ih0 w0).2
    have P1 := (ih1 w1).2
    have P2 := (ih2 w2).2
    have P3 := (ih3 w3).2
    constructor
    · intro x hx
      simp only [QuadTreeNode.collectVisibleTiles] at hx
      split_ifs at hx
      all_goals first
        | exact absurd hx (List.not_mem_nil x)
        | (simp only [List.mem_singleton] at hx; subst hx;
           exact weakDesc_refl _)
        | (rcases List.mem_append.mp hx with hx | hx
           · exact weakDesc_trans (childIds_weakDesc id _ m0) (D0 x hx)
           · rcases List.mem_append.mp hx with hx | hx
             · exact weakDesc_trans (childIds_weakDesc id _ m1) (D1 x hx)
             · rcases List.mem_append.mp hx with hx | hx
               · exact weakDesc_trans (childIds_weakDesc id _ m2) (D2 x hx)
               · exact weakDesc_trans (childIds_weakDesc id _ m3) (D3 x hx))
    · simp only [QuadTreeNode.collectVisibleTiles]
      split_ifs
      all_goals first
        | exact List.Pairwise.nil
        | exact List.pairwise_singleton _ _
        | (rw [List.pairwise_append]
           refine ⟨P0, ?_, ?_⟩
           · rw [List.pairwise_append]
             refine ⟨P1, ?_, ?_⟩
             · rw [List.pairwise_append]
               exact ⟨P2, P3,
                 fun a ha b hb => cross_noAnc m2 m3 ne23 (D2 a ha) (D3 b hb)⟩
             · intro a ha b hb
               rcases List.mem_append.mp hb with hb | hb
               · exact cross_noAnc m1 m2 ne12 (D1 a ha) (D2 b hb)
               · exact cross_noAnc m1 m3 ne13 (D1 a ha) (D3 b hb)
           · intro a ha b hb
             rcases List.mem_append.mp hb with hb | hb
             · exact cross_noAnc m0 m1 ne01 (D0 a ha) (D1 b hb)
             · rcases List.mem_append.mp hb with hb | hb
               · exact cross_noAnc m0 m2 ne02 (D0 a ha) (D2 b hb)
               · exact cross_noAnc m0 m3 ne03 (D0 a ha) (D3 b hb))

/-- `reset_visibility` keeps the node's tile id. -/
theorem resetVisibility_tileId (n : QuadTreeNode) :
    n.resetVisibility.tileId = n.tileId := by
  cases n <;> rfl

/-- `reset_visibility` keeps the tree well-formed. -/
theorem resetVisibility_wfB (n : QuadTreeNode) :
    n.resetVisibility.wfB = n.wfB := by
  induction n with
  | leaf id v ld => rfl
  | node id v ld c0 c1 c2 c3 ih0 ih1 ih2 ih3 =>
    simp only [QuadTreeNode.resetVisibility, QuadTreeNode.wfB,
      resetVisibility_tileId, ih0, ih1, ih2, ih3]

/-- `freshExpand` roots its result at the requested tile id. -/
theorem freshExpand_tileId (isVis : TileId → Bool) (tz : Nat) (id : TileId) :
    (QuadTreeNode.freshExpand isVis tz id).tileId = id := by
  rw [QuadTreeNode.freshExpand]
  split_ifs <;> rfl

/-- Subtrees created by subdivision during `update_node_visibility` are
well-formed. -/
theorem freshExpand_wfB (isVis : TileId → Bool) (tz : Nat) :
    ∀ (fuel : Nat) (id : TileId), tz - id.zoom ≤ fuel →
      (QuadTreeNode.freshExpand isVis tz id).wfB = true := by
  intro fuel
  induction fuel with
  | zero =>
    intro id h
    rw [QuadTreeNode.freshExpand]
    split_ifs with h1 h2
    all_goals first
      | rfl
      | (exfalso; omega)
  | succ fuel ih =>
    intro id h
    rw [QuadTreeNode.freshExpand]
    split_ifs with h1 h2
    all_goals first
      | rfl
      | (simp only [QuadTreeNode.wfB, freshExpand_tileId, decide_eq_true_eq,
           Bool.and_eq_true]
         simp only [eq_self_iff_true, true_and, and_true]
         refine ⟨⟨⟨?_, ?_⟩, ?_⟩, ?_⟩ <;>
           exact ih _ (by show tz - (id.zoom + 1) ≤ fuel; omega))

/-- `update_node_visibility` keeps the node's tile id. -/
theorem updateVisibility_tileId (isVis : TileId → Bool) (tz : Nat)
    (n : QuadTreeNode) :
    (n.updateVisibility isVis tz).tileId = n.tileId := by
  cases n <;> rw [QuadTreeNode.updateVisibility] <;> split_ifs <;> rfl

/-- `update_node_visibility` keeps the tree well-formed. -/
theorem updateVisibility_wfB (isVis : TileId → Bool) (tz : Nat) :
    ∀ n : QuadTreeNode, n.wfB = true →
      (n.updateVisibility isVis tz).wfB = true := by
  intro n
  induction n with
  | leaf id v ld =>
    intro _
    rw [QuadTreeNode.updateVisibility]
    split_ifs
    all_goals first
      | rfl
      | (simp only [QuadTreeNode.wfB, freshExpand_tileId, decide_eq_true_eq,
           Bool.and_eq_true]
         simp only [eq_self_iff_true, true_and, and_true]
         refine ⟨⟨⟨?_, ?_⟩, ?_⟩, ?_⟩ <;>
           exact freshExpand_wfB isVis tz tz _ (Nat.sub_le _ _))
  | node id v ld c0 c1 c2 c3 ih0 ih1 ih2 ih3 =>
    intro hwf
    simp only [QuadTreeNode.wfB, Bool.and_eq_true, decide_eq_true_eq] at hwf
    obtain ⟨⟨⟨⟨⟨⟨⟨h0, h1⟩, h2⟩, h3⟩, w0⟩, w1⟩, w2⟩, w3⟩ := hwf
    rw [QuadTreeNode.updateVisibility]
    split_ifs
    all_goals first
      | rfl
      | (simp only [QuadTreeNode.wfB, Bool.and_eq_true, decide_eq_true_eq,
           updateVisibility_tileId]
         first
           | exact ⟨⟨⟨⟨⟨⟨⟨h0, h1⟩, h2⟩, h3⟩, w0⟩, w1⟩, w2⟩, w3⟩
           | exact ⟨⟨⟨⟨⟨⟨⟨h0, h1⟩, h2⟩, h3⟩, ih0 w0⟩, ih1 w1⟩, ih2 w2⟩,
               ih3 w3⟩)

/-- `TileQuadtree::update` keeps the tree well-formed. -/
theorem quadtreeUpdate_wfB (isVis : TileId → Bool) (tz mz : Nat)
    (root : QuadTreeNode) (h : root.wfB = true) :
    (quadtreeUpdate isVis tz mz root).wfB = true :=
  updateVisibility_wfB isVis (min tz mz) _
    (by rw [resetVisibility_wfB]; exact h)

/-- C1: after `update` runs on any well-formed quadtree (for any view
oracle and target zoom), `get_visible_tiles` never returns two addresses
where one is a strict quadtree-ancestor of the other. -/
theorem visible_tiles_no_double_coverage (isVis : TileId → Bool)
    (tz mz : Nat) (root : QuadTreeNode) (hwf : root.wfB = true) :
    (getVisibleTiles mz (quadtreeUpdate isVis tz mz root)).Pairwise
      noAncestorPair :=
  (collect_desc_pairwise mz _ (quadtreeUpdate_wfB isVis tz mz root hwf)).2

/-- Witness for C1: an everything-visible view expanded to zoom 2 from the
world root. -/
theorem visible_tiles_no_double_coverage_witness :
    (getVisibleTiles 18 (quadtreeUpdate (fun _ => true) 2 18
        (QuadTreeNode.leaf ⟨0, 0, 0⟩ false false))).Pairwise noAncestorPair :=
  visible_tiles_no_double_coverage (fun _ => true) 2 18
    (QuadTreeNode.leaf ⟨0, 0, 0⟩ false false) (by decide)

/-! ### C7: tiles-to-load -/

/-- A node with a nonempty collection is visible. -/
theorem collect_nonempty_visible (mz : Nat) (n : QuadTreeNode) (x : TileId)
    (hx : x ∈ n.collectVisibleTiles mz) : n.visibleFlag = true := by
  cases n with
  | leaf id v ld =>
    by_cases hv : v = true
    · exact hv
    · simp only [QuadTreeNode.collectVisibleTiles] at hx
      rw [if_neg hv] at hx
      exact absurd hx (List.not_mem_nil x)
  | node id v ld c0 c1 c2 c3 =>
    by_cases hv : v = true
    · exact hv
    · simp only [QuadTreeNode.collectVisibleTiles] at hx
      rw [if_pos hv] at hx
      exact absurd hx (List.not_mem_nil x)

/-- Anything collected under a visible child is collected at the parent
(when the parent is visible and below `max_zoom`). -/
theorem mem_collect_node (mz : Nat) (id : TileId) (ld : Bool)
    (c0 c1 c2 c3 : QuadTreeNode) (x : TileId) (hmz : ¬ id.zoom = mz)
    (hx : x ∈ c0.collectVisibleTiles mz ∨ x ∈ c1.collectVisibleTiles mz ∨
          x ∈ c2.collectVisibleTiles mz ∨ x ∈ c3.collectVisibleTiles mz) :
    x ∈ (QuadTreeNode.node id true ld c0 c1 c2 c3).collectVisibleTiles mz := by
  have hany : (c0.visibleFlag || c1.visibleFlag || c2.visibleFlag ||
      c3.visibleFlag) = true := by
    rcases hx with h | h | h | h <;>
      simp [collect_nonempty_visible mz _ _ h]
  simp only [QuadTreeNode.collectVisibleTiles]
  rw [if_neg (by simp), if_neg hmz, if_pos hany]
  rcases hx with h | h | h | h
  · exact List.mem_append_left _ h
  · exact List.mem_append_right _ (List.mem_append_left _ h)
  · exact List.mem_append_right _ (List.mem_append_right _
      (List.mem_append_left _ h))
  · exact List.mem_append_right _ (List.mem_append_right _
      (List.mem_append_right _ h))

/-- A visible node whose children are all invisible collects itself. -/
theorem mem_collect_node_self (mz : Nat) (id : TileId) (ld : Bool)
    (c0 c1 c2 c3 : QuadTreeNode)
    (h0 : c0.visibleFlag = false) (h1 : c1.visibleFlag = false)
    (h2 : c2.visibleFlag = false) (h3 : c3.visibleFlag = false) :
    id ∈ (QuadTreeNode.node id true ld c0 c1 c2 c3).collectVisibleTiles mz := by
  simp only [QuadTreeNode.collectVisibleTiles]
  rw [if_neg (by simp)]
  by_cases hmz : id.zoom = mz
  · rw [if_pos hmz]; simp
  · rw [if_neg hmz, if_neg (by simp [h0, h1, h2, h3])]; simp

/-- Inversion: what a node collects is itself or something a child
collects. -/
theorem collect_node_cases (mz : Nat) (id : TileId) (v ld : Bool)
    (c0 c1 c2 c3 : QuadTreeNode) (x : TileId)
    (hx : x ∈ (QuadTreeNode.node id v ld c0 c1 c2 c3).collectVisibleTiles mz) :
    x = id ∨ x ∈ c0.collectVisibleTiles mz ∨ x ∈ c1.collectVisibleTiles mz ∨
      x ∈ c2.collectVisibleTiles mz ∨ x ∈ c3.collectVisibleTiles mz := by
  simp only [QuadTreeNode.collectVisibleTiles] at hx
  split_ifs at hx
  all_goals first
    | exact absurd hx (List.not_mem_nil x)
    | (simp only [List.mem_singleton] at hx; exact Or.inl hx)
    | (rcases List.mem_append.mp hx with h | h
       · exact Or.inr (Or.inl h)
       · rcases List.mem_append.mp h with h | h
         · exact Or.inr (Or.inr (Or.inl h))
         · rcases List.mem_append.mp h with h | h
           · exact Or.inr (Or.inr (Or.inr (Or.inl h)))
           · exact Or.inr (Or.inr (Or.inr (Or.inr h))))

/-- Inversion for leaves. -/
theorem collect_leaf_cases (mz : Nat) (id : TileId) (v ld : Bool) (x : TileId)
    (hx : x ∈ (QuadTreeNode.leaf id v ld).collectVisibleTiles mz) :
    x = id := by
  simp only [QuadTreeNode.collectVisibleTiles] at hx
  split_ifs at hx
  · exact List.mem_singleton.mp hx
  · exact absurd hx (List.not_mem_nil x)

/-- `reset_visibility` clears every flag in the subtree. -/
theorem resetVisibility_allInvisible (n : QuadTreeNode) :
    n.resetVisibility.allInvisible = true := by
  induction n with
  | leaf id v ld => rfl
  | node id v ld c0 c1 c2 c3 ih0 ih1 ih2 ih3 =>
    simp [QuadTreeNode.resetVisibility, QuadTreeNode.allInvisible,
      ih0, ih1, ih2, ih3]

/-- An all-invisible subtree has an invisible root. -/
theorem allInvisible_visibleFlag (n : QuadTreeNode)
    (h : n.allInvisible = true) : n.visibleFlag = false := by
  cases n <;> simp only [QuadTreeNode.allInvisible, Bool.and_eq_true,
    Bool.not_eq_true'] at h
  · exact h
  · exact h.1.1.1.1

/-- The visibility flag `freshExpand` computes is exactly the oracle's
verdict on the node's tile. -/
theorem freshExpand_visibleFlag (isVis : TileId → Bool) (tz : Nat)
    (id : TileId) :
    (QuadTreeNode.freshExpand isVis tz id).visibleFlag = isVis id := by
  rw [QuadTreeNode.freshExpand]
  split_ifs with h1 h2 <;> simp_all [QuadTreeNode.visibleFlag]

/-- The visibility flag `update_node_visibility` stores is exactly the
oracle's verdict on the node's tile. -/
theorem updateVisibility_visibleFlag (isVis : TileId → Bool) (tz : Nat)
    (n : QuadTreeNode) :
    (n.updateVisibility isVis tz).visibleFlag = isVis n.tileId := by
  cases n <;> rw [QuadTreeNode.updateVisibility] <;> split_ifs <;>
    simp_all [QuadTreeNode.visibleFlag, QuadTreeNode.tileId]

/-- The ancestor of `d` one level below `ancAt z` is one of `ancAt z`'s
quadtree children. -/
theorem ancAt_succ_mem (d : TileId) (z : Nat) (h : z + 1 ≤ d.zoom) :
    d.ancAt (z + 1) ∈ (d.ancAt z).childIds := by
  have e1 : d.zoom - z = (d.zoom - (z + 1)) + 1 := by omega
  simp only [TileId.ancAt, TileId.childIds, e1, pow_succ, List.mem_cons,
    List.not_mem_nil, or_false, ← Nat.div_div_eq_div_mul]
  set X := d.x / 2 ^ (d.zoom - (z + 1)) with hX
  set Y := d.y / 2 ^ (d.zoom - (z + 1)) with hY
  rcases Nat.mod_two_eq_zero_or_one X with hx2 | hx2 <;>
    rcases Nat.mod_two_eq_zero_or_one Y with hy2 | hy2
  · exact Or.inl (by rw [show 2 * (X / 2) = X by omega,
      show 2 * (Y / 2) = Y by omega])
  · exact Or.inr (Or.inr (Or.inl (by rw [show 2 * (X / 2) = X by omega,
      show 2 * (Y / 2) + 1 = Y by omega])))
  · exact Or.inr (Or.inl (by rw [show 2 * (X / 2) + 1 = X by omega,
      show 2 * (Y / 2) = Y by omega]))
  · exact Or.inr (Or.inr (Or.inr (by rw [show 2 * (X / 2) + 1 = X by omega,
      show 2 * (Y / 2) + 1 = Y by omega])))

/-- If the view oracle accepts every ancestor of a target tile `c` whose
zoom equals the target zoom, subdivision started at an ancestor of `c`
ends up collecting `c`. -/
theorem freshExpand_reach (isVis : TileId → Bool) (tz mz : Nat) (c : TileId)
    (hc : c.zoom = tz) (htm : tz ≤ mz)
    (hvis : ∀ z, z ≤ tz → isVis (c.ancAt z) = true) :
    ∀ (fuel : Nat) (id : TileId), tz - id.zoom ≤ fuel → id.zoom ≤ tz →
      c.ancAt id.zoom = id →
      c ∈ (QuadTreeNode.freshExpand isVis tz id).collectVisibleTiles mz := by
  intro fuel
  induction fuel with
  | zero =>
    intro id hfuel hzle hanc
    have hz : id.zoom = tz := by omega
    have hid : id = c := by
      rw [← hanc, hz, ← hc, ancAt_self]
    subst hid
    have hvisc : isVis id = true := by
      have h := hvis id.zoom hzle
      rwa [hanc] at h
    rw [QuadTreeNode.freshExpand, if_neg (by simp [hvisc]),
      if_pos (show tz ≤ id.zoom by omega)]
    simp [QuadTreeNode.collectVisibleTiles]
  | succ fuel ih =>
    intro id hfuel hzle hanc
    have hvisid : isVis id = true := by
      have h := hvis id.zoom hzle
      rwa [hanc] at h
    by_cases hzeq : tz ≤ id.zoom
    · have hid : id = c := by
        rw [← hanc, (by omega : id.zoom = tz), ← hc, ancAt_self]
      subst hid
      rw [QuadTreeNode.freshExpand, if_neg (by simp [hvisid]), if_pos hzeq]
      simp [QuadTreeNode.collectVisibleTiles]
    · push_neg at hzeq
      rw [QuadTreeNode.freshExpand, if_neg (by simp [hvisid]),
        if_neg (by omega)]
      have hstep : c.ancAt (id.zoom + 1) ∈ id.childIds := by
        have h := ancAt_succ_mem c id.zoom (by omega)
        rwa [hanc] at h
      refine mem_collect_node mz id false _ _ _ _ c (by omega) ?_
      simp only [TileId.childIds, List.mem_cons, List.not_mem_nil,
        or_false] at hstep
      rcases hstep with hk | hk | hk | hk
      · exact Or.inl (ih _ (by show tz - (id.zoom + 1) ≤ fuel; omega)
          (by show id.zoom + 1 ≤ tz; omega) hk)
      · exact Or.inr (Or.inl (ih _ (by show tz - (id.zoom + 1) ≤ fuel; omega)
          (by show id.zoom + 1 ≤ tz; omega) hk))
      · exact Or.inr (Or.inr (Or.inl
          (ih _ (by show tz - (id.zoom + 1) ≤ fuel; omega)
            (by show id.zoom + 1 ≤ tz; omega) hk)))
      · exact Or.inr (Or.inr (Or.inr
          (ih _ (by show tz - (id.zoom + 1) ≤ fuel; omega)
            (by show id.zoom + 1 ≤ tz; omega) hk)))

/-- After `update_node_visibility` runs on a reset, well-formed subtree
rooted at an ancestor of the target tile `c` (zoom = target zoom), the
collection contains `c`, provided the oracle accepts every ancestor of
`c`. -/
theorem update_reach (isVis : TileId → Bool) (tz mz : Nat) (c : TileId)
    (hc : c.zoom = tz) (htm : tz ≤ mz)
    (hvis : ∀ z, z ≤ tz → isVis (c.ancAt z) = true) :
    ∀ n : QuadTreeNode, n.wfB = true → n.allInvisible = true →
      n.tileId.zoom ≤ tz → c.ancAt n.tileId.zoom = n.tileId →
      c ∈ (n.updateVisibility isVis tz).collectVisibleTiles mz := by
  intro n
  induction n with
  | leaf id v ld =>
    intro _ _ hzle hanc
    simp only [QuadTreeNode.tileId] at hzle hanc
    have hvisid : isVis id = true := by
      have h := hvis id.zoom hzle
      rwa [hanc] at h
    rw [QuadTreeNode.updateVisibility]
    by_cases hzeq : tz ≤ id.zoom
    · have hid : id = c := by
        rw [← hanc, (by omega : id.zoom = tz), ← hc, ancAt_self]
      subst hid
      rw [if_neg (by simp [hvisid]), if_pos hzeq]
      simp [QuadTreeNode.collectVisibleTiles]
    · push_neg at hzeq
      rw [if_neg (by simp [hvisid]), if_neg (by omega)]
      have hstep : c.ancAt (id.zoom + 1) ∈ id.childIds := by
        have h := ancAt_succ_mem c id.zoom (by omega)
        rwa [hanc] at h
      refine mem_collect_node mz id ld _ _ _ _ c (by omega) ?_
      simp only [TileId.childIds, List.mem_cons, List.not_mem_nil,
        or_false] at hstep
      rcases hstep with hk | hk | hk | hk
      · exact Or.inl (freshExpand_reach isVis tz mz c hc htm hvis tz _
          (by show tz - (id.zoom + 1) ≤ tz; omega)
          (by show id.zoom + 1 ≤ tz; omega) hk)
      · exact Or.inr (Or.inl (freshExpand_reach isVis tz mz c hc htm hvis tz _
          (by show tz - (id.zoom + 1) ≤ tz; omega)
          (by show id.zoom + 1 ≤ tz; omega) hk))
      · exact Or.inr (Or.inr (Or.inl
          (freshExpand_reach isVis tz mz c hc htm hvis tz _
            (by show tz - (id.zoom + 1) ≤ tz; omega)
            (by show id.zoom + 1 ≤ tz; omega) hk)))
      · exact Or.inr (Or.inr (Or.inr
          (freshExpand_reach isVis tz mz c hc htm hvis tz _
            (by show tz - (id.zoom + 1) ≤ tz; omega)
            (by show id.zoom + 1 ≤ tz; omega) hk)))
  | node id v ld c0 c1 c2 c3 ih0 ih1 ih2 ih3 =>
    intro hwf hinv hzle hanc
    simp only [QuadTreeNode.tileId] at hzle hanc
    simp only [QuadTreeNode.wfB, Bool.and_eq_true, decide_eq_true_eq] at hwf
    obtain ⟨⟨⟨⟨⟨⟨⟨h0, h1⟩, h2⟩, h3⟩, w0⟩, w1⟩, w2⟩, w3⟩ := hwf
    simp only [QuadTreeNode.allInvisible, Bool.and_eq_true] at hinv
    obtain ⟨⟨⟨⟨-, i0⟩, i1⟩, i2⟩, i3⟩ := hinv
    have hvisid : isVis id = true := by
      have h := hvis id.zoom hzle
      rwa [hanc] at h
    rw [QuadTreeNode.updateVisibility]
    by_cases hzeq : tz ≤ id.zoom
    · have hid : id = c := by
        rw [← hanc, (by omega : id.zoom = tz), ← hc, ancAt_self]
      subst hid
      rw [if_neg (by simp [hvisid]), if_pos hzeq]
      exact mem_collect_node_self mz id ld c0 c1 c2 c3
        (allInvisible_visibleFlag c0 i0) (allInvisible_visibleFlag c1 i1)
        (allInvisible_visibleFlag c2 i2) (allInvisible_visibleFlag c3 i3)
    · push_neg at hzeq
      rw [if_neg (by simp [hvisid]), if_neg (by omega)]
      have hstep : c.ancAt (id.zoom + 1) ∈ id.childIds := by
        have h := ancAt_succ_mem c id.zoom (by omega)
        rwa [hanc] at h
      refine mem_collect_node mz id ld _ _ _ _ c (by omega) ?_
      simp only [TileId.childIds, List.mem_cons, List.not_mem_nil,
        or_false] at hstep
      rcases hstep with hk | hk | hk | hk
      · exact Or.inl (ih0 w0 i0 (by rw [h0]; exact (by omega : id.zoom + 1 ≤ tz))
          (by rw [h0]; exact hk))
      · exact Or.inr (Or.inl (ih1 w1 i1
          (by rw [h1]; exact (by omega : id.zoom + 1 ≤ tz))
          (by rw [h1]; exact hk)))
      · exact Or.inr (Or.inr (Or.inl (ih2 w2 i2
          (by rw [h2]; exact (by omega : id.zoom + 1 ≤ tz))
          (by rw [h2]; exact hk))))
      · exact Or.inr (Or.inr (Or.inr (ih3 w3 i3
          (by rw [h3]; exact (by omega : id.zoom + 1 ≤ tz))
          (by rw [h3]; exact hk))))

/-- Everything a `freshExpand` subtree collects sits at zoom at most
`max tz` the subtree root's zoom. -/
theorem freshExpand_collect_zoom_le (isVis : TileId → Bool) (tz mz : Nat) :
    ∀ (fuel : Nat) (id : TileId), tz - id.zoom ≤ fuel →
      ∀ x ∈ (QuadTreeNode.freshExpand isVis tz id).collectVisibleTiles mz,
        x.zoom ≤ max tz id.zoom := by
  intro fuel
  induction fuel with
  | zero =>
    intro id hfuel x hx
    rw [QuadTreeNode.freshExpand] at hx
    split_ifs at hx
    all_goals first
      | (rw [collect_leaf_cases mz id _ _ x hx]; exact le_max_right _ _)
      | (exfalso; omega)
  | succ fuel ih =>
    intro id hfuel x hx
    rw [QuadTreeNode.freshExpand] at hx
    split_ifs at hx with hv hz
    all_goals first
      | (rw [collect_leaf_cases mz id _ _ x hx]; exact le_max_right _ _)
      | (rcases collect_node_cases mz id _ _ _ _ _ _ x hx with
           rfl | h | h | h | h
         · exact le_max_right _ _
         all_goals
           refine le_trans (ih _ (by show tz - (id.zoom + 1) ≤ fuel; omega)
             x h) ?_
           simp only [max_le_iff, le_max_iff]
           omega)

/-- Everything collected after `update_node_visibility` on a reset,
well-formed subtree sits at zoom at most `max tz` the subtree root's
zoom. -/
theorem update_collect_zoom_le (isVis : TileId → Bool) (tz mz : Nat) :
    ∀ n : QuadTreeNode, n.wfB = true → n.allInvisible = true →
      ∀ x ∈ (n.updateVisibility isVis tz).collectVisibleTiles mz,
        x.zoom ≤ max tz n.tileId.zoom := by
  intro n
  induction n with
  | leaf id v ld =>
    intro _ _ x hx
    rw [QuadTreeNode.updateVisibility] at hx
    split_ifs at hx with hv hz
    all_goals first
      | (rw [collect_leaf_cases mz id _ _ x hx]; exact le_max_right _ _)
      | (rcases collect_node_cases mz id _ _ _ _ _ _ x hx with
           rfl | h | h | h | h
         · exact le_max_right _ _
         all_goals
           refine le_trans (freshExpand_collect_zoom_le isVis tz mz tz _
             (by show tz - (id.zoom + 1) ≤ tz; omega) x h) ?_
           simp only [max_le_iff, le_max_iff]
           omega)
  | node id v ld c0 c1 c2 c3 ih0 ih1 ih2 ih3 =>
    intro hwf hinv x hx
    simp only [QuadTreeNode.wfB, Bool.and_eq_true, decide_eq_true_eq] at hwf
    obtain ⟨⟨⟨⟨⟨⟨⟨h0, h1⟩, h2⟩, h3⟩, w0⟩, w1⟩, w2⟩, w3⟩ := hwf
    simp only [QuadTreeNode.allInvisible, Bool.and_eq_true] at hinv
    obtain ⟨⟨⟨⟨-, i0⟩, i1⟩, i2⟩, i3⟩ := hinv
    rw [QuadTreeNode.updateVisibility] at hx
    split_ifs at hx with hv hz
    all_goals first
      | (rw [collect_leaf_cases mz id _ _ x hx]; exact le_max_right _ _)
      | (have hzz : tz ≤ id.zoom := hz
         -- stopped at or past the target zoom: children untouched, invisible
         rcases collect_node_cases mz id _ _ _ _ _ _ x hx with
           rfl | h | h | h | h
         · exact le_max_right _ _
         · exact absurd (collect_nonempty_visible mz _ _ h)
             (by simp [allInvisible_visibleFlag c0 i0])
         · exact absurd (collect_nonempty_visible mz _ _ h)
             (by simp [allInvisible_visibleFlag c1 i1])
         · exact absurd (collect_nonempty_visible mz _ _ h)
             (by simp [allInvisible_visibleFlag c2 i2])
         · exact absurd (collect_nonempty_visible mz _ _ h)
             (by simp [allInvisible_visibleFlag c3 i3]))
      | (have hzz : ¬ tz ≤ id.zoom := hz
         -- subdivision: recurse into the children
         rcases collect_node_cases mz id _ _ _ _ _ _ x hx with
           rfl | h | h | h | h
         · exact le_max_right _ _
         · refine le_trans (ih0 w0 i0 x h) ?_
           rw [h0]; dsimp only; simp only [max_le_iff, le_max_iff]; omega
         · refine le_trans (ih1 w1 i1 x h) ?_
           rw [h1]; dsimp only; simp only [max_le_iff, le_max_iff]; omega
         · refine le_trans (ih2 w2 i2 x h) ?_
           rw [h2]; dsimp only; simp only [max_le_iff, le_max_iff]; omega
         · refine le_trans (ih3 w3 i3 x h) ?_
           rw [h3]; dsimp only; simp only [max_le_iff, le_max_iff]; omega)

/-- Membership in `get_tiles_to_load`: exactly the visible tiles and their
adjacency rings. -/
theorem mem_tilesToLoad (mz : Nat) (root : QuadTreeNode) (x : TileId) :
    x ∈ getTilesToLoad mz root ↔
      x ∈ getVisibleTiles mz root ∨
        ∃ v ∈ getVisibleTiles mz root, x ∈ v.getAdjacentTiles := by
  unfold getTilesToLoad
  simp only [List.mem_flatMap, List.mem_cons]
  constructor
  · rintro ⟨v, hv, rfl | hx⟩
    · exact Or.inl hv
    · exact Or.inr ⟨v, hv, hx⟩
  · rintro (hx | ⟨v, hv, hx⟩)
    · exact ⟨x, hx, Or.inl rfl⟩
    · exact ⟨v, hv, Or.inr hx⟩

/-- Adjacent tiles keep the zoom level. -/
theorem adjacent_zoom (t a : TileId) (ha : a ∈ t.getAdjacentTiles) :
    a.zoom = t.zoom := by
  rw [mem_adjacent_iff] at ha
  obtain ⟨dx, _, dy, _, h⟩ := ha
  obtain ⟨-, -, -, rfl⟩ := adjCandidate_eq_some t dx dy _ h
  rfl

/-- C7: `get_tiles_to_load` is exactly the visible set plus the one-ring
adjacency of each visible tile; and in the zoom-13 scenario — a view whose
oracle accepts the ancestors of tile (4216, 2668) at target zoom 13 on the
standard zoom-0 root — it contains (13, 4216, 2668) and all 8 of its
zoom-13 neighbours, but not the zoom-14 child (14, 8432, 5336), because the
target zoom stays below 14. -/
theorem tiles_to_load_spec (isVis : TileId → Bool) (mz : Nat)
    (root : QuadTreeNode) (hwf : root.wfB = true)
    (hroot : root.tileId = TileId.mk 0 0 0) (hmz : 13 ≤ mz)
    (hvis : ∀ z, z ≤ 13 → isVis ((TileId.mk 13 4216 2668).ancAt z) = true) :
    (∀ (mz' : Nat) (r : QuadTreeNode) (x : TileId),
        x ∈ getTilesToLoad mz' r ↔
          x ∈ getVisibleTiles mz' r ∨
            ∃ v ∈ getVisibleTiles mz' r, x ∈ v.getAdjacentTiles) ∧
    TileId.mk 13 4216 2668 ∈
      getTilesToLoad mz (quadtreeUpdate isVis 13 mz root) ∧
    (∀ a ∈ (TileId.mk 13 4216 2668).getAdjacentTiles,
        a ∈ getTilesToLoad mz (quadtreeUpdate isVis 13 mz root)) ∧
    TileId.mk 14 8432 5336 ∉
      getTilesToLoad mz (quadtreeUpdate isVis 13 mz root) := by
  have hmin : min 13 mz = 13 := min_eq_left hmz
  have hvisible : TileId.mk 13 4216 2668 ∈
      getVisibleTiles mz (quadtreeUpdate isVis 13 mz root) := by
    unfold quadtreeUpdate getVisibleTiles
    rw [hmin]
    refine update_reach isVis 13 mz _ rfl hmz hvis _ ?_ ?_ ?_ ?_
    · rw [resetVisibility_wfB]; exact hwf
    · exact resetVisibility_allInvisible root
    · rw [resetVisibility_tileId, hroot]; decide
    · rw [resetVisibility_tileId, hroot]; decide
  have hzoomle : ∀ x ∈ getVisibleTiles mz (quadtreeUpdate isVis 13 mz root),
      x.zoom ≤ 13 := by
    intro x hx
    unfold quadtreeUpdate getVisibleTiles at hx
    rw [hmin] at hx
    have h := update_collect_zoom_le isVis 13 mz _
      (by rw [resetVisibility_wfB]; exact hwf)
      (resetVisibility_allInvisible root) x hx
    rw [resetVisibility_tileId, hroot] at h
    simpa using h
  refine ⟨fun mz' r x => mem_tilesToLoad mz' r x, ?_, ?_, ?_⟩
  · exact (mem_tilesToLoad _ _ _).mpr (Or.inl hvisible)
  · intro a ha
    exact (mem_tilesToLoad _ _ _).mpr (Or.inr ⟨_, hvisible, ha⟩)
  · intro hbad
    rcases (mem_tilesToLoad _ _ _).mp hbad with h | ⟨v, hv, hadj⟩
    · exact absurd (hzoomle _ h) (by decide)
    · have h1 := hzoomle _ hv
      have h2 := adjacent_zoom v _ hadj
      dsimp only at h2
      omega

/-- Witness for C7: the concrete tile (13, 4216, 2668) with its exact
ancestor oracle and the default parameters. -/
theorem tiles_to_load_spec_witness :
    TileId.mk 13 4216 2668 ∈ getTilesToLoad 18
      (quadtreeUpdate visOracle13 13 18
        (QuadTreeNode.leaf ⟨0, 0, 0⟩ false false)) ∧
    TileId.mk 14 8432 5336 ∉ getTilesToLoad 18
      (quadtreeUpdate visOracle13 13 18
        (QuadTreeNode.leaf ⟨0, 0, 0⟩ false false)) := by
  have h := tiles_to_load_spec visOracle13 18
    (QuadTreeNode.leaf ⟨0, 0, 0⟩ false false)
    (by decide) (by decide) (by norm_num) (by decide)
  exact ⟨h.2.1, h.2.2.2⟩

end VibeWorld
